import Mathlib

/-
Verification of the blobtoolkit filter core (src/blobtools/lib/filter.py).

The embedding models the typed field data model and the filter engine:
`parse_params`, `filter_by_params` (per-field predicate application and the
global invert), `filter_by_json`, `create_filtered_dataset`, the index
pipeline of `main`, and the `spanOverN50` summary statistic.

Machine numbers are modelled with exact arithmetic (ℚ for float values,
Int for integer parameters).  Record positions are Nat.  Fallible code
(key-name lookup raising ValueError, min()/max() of an empty sequence,
KeyError on an unknown field type) is modelled with Except.
-/

/-- The four field variants of the data model.  `values` is the ordered
per-record value sequence.  A Category value is an index into `keys`; a
MultiArray value is a sequence of tuples, the `category_slot` position of a
tuple being an index into `keys` (tuples are modelled by their integer
entries, which is all the filter engine reads). -/
inductive FieldData where
  | Identifier (values : List String)
  | Variable (values : List ℚ)
  | Category (keys : List String) (values : List Nat)
  | MultiArray (keys : List String) (category_slot : Nat)
      (values : List (List (List Nat)))
deriving DecidableEq

/-- The parsed filter parameters for one field, after the truthiness tests
of `filters.get(...)` and the `float(...)` / `int(...)` conversions in
`filter_by_params`: a field is `some` exactly when the raw parameter is
present and truthy (a non-empty string). -/
structure Filters where
  Inv : Bool
  Keys : Option String
  Min : Option ℚ
  Max : Option ℚ
  MinLength : Option Int
  MaxLength : Option Int
deriving DecidableEq

/-- The all-absent parameter record. -/
def Filters.none : Filters := ⟨false, Option.none, Option.none, Option.none, Option.none, Option.none⟩

deriving instance DecidableEq for Except

/-- Leading-segment removal: when sep is an initial run of cs, the remainder
after it. -/
def dropSep : List Char → List Char → Option (List Char)
  | [], cs => some cs
  | _ :: _, [] => Option.none
  | s :: ss, c :: cs => if s = c then dropSep ss cs else Option.none

/-- Fuel-driven scanner behind `pySplit`: collect the current piece until the
separator occurs, then start a new piece after it. -/
def splitAux (sep : List Char) : Nat → List Char → List Char → List (List Char)
  | 0, cur, _ => [cur.reverse]
  | _ + 1, cur, [] => [cur.reverse]
  | f + 1, cur, c :: cs =>
    match dropSep sep (c :: cs) with
    | some rest => cur.reverse :: splitAux sep f [] rest
    | Option.none => splitAux sep f (c :: cur) cs

/-- Python's `s.split(sep)` for a non-empty separator: non-overlapping
left-to-right splitting, keeping empty pieces. -/
def pySplit (s sep : String) : List String :=
  (splitAux sep.data (s.data.length + 1) [] s.data).map String.mk

/-- Python's `s.isdigit()` for ASCII strings: non-empty and all digits. -/
def pyIsDigit (s : String) : Bool :=
  !s.data.isEmpty && s.data.all (fun c => c.isDigit)

/-- Python's `int(s)` on a digit string: its decimal value. -/
def pyToNat (s : String) : Nat :=
  s.data.foldl (fun n c => 10 * n + (c.toNat - 48)) 0

/-- Python's `list.index`: position of the first occurrence, ValueError when
the element is absent. -/
def listIndex (tok : String) : List String → Except String Nat
  | [] => .error "ValueError: not in list"
  | k :: ks => if k = tok then .ok 0 else (listIndex tok ks).map (· + 1)

/-- One token of a `Keys` parameter: `int(x) if x.isdigit() else field.keys.index(x)`.
A digit string is used directly as a key index (no lookup, no bounds check);
any other token is looked up by key name. -/
def resolveKeyToken (keys : List String) (tok : String) : Except String Nat :=
  if pyIsDigit tok then .ok (pyToNat tok) else listIndex tok keys

/-- The whole `Keys` parameter: split on "," and resolve every token. -/
def resolveKeys (keys : List String) (s : String) : Except String (List Nat) :=
  (pySplit s ",").mapM (resolveKeyToken keys)

/-- The complement step `[i for i, x in enumerate(field.keys) if i not in keys]`. -/
def complementKeys (keys : List String) (ks : List Nat) : List Nat :=
  (List.range keys.length).filter (fun i => decide (i ∉ ks))

/-- The Category branch of `filter_by_params`: when `Keys` is given, resolve
it to a candidate index list, complement it unless `Inv` is set, and keep the
indices whose category value is in the resulting set. -/
def categoryFilter (keys : List String) (values : List Nat) (f : Filters)
    (indices : List Nat) : Except String (List Nat) :=
  match f.Keys with
  | Option.none => .ok indices
  | some s => do
      let resolved ← resolveKeys keys s
      let eff := if f.Inv then resolved else complementKeys keys resolved
      .ok (indices.filter (fun i => decide (values.getD i 0 ∈ eff)))

/-- The Variable branch of `filter_by_params`: `low = float(Min)` when given
else `-inf`, `high = float(Max)` when given else `inf`; `Inv` keeps values
outside `[low, high]`, otherwise values inside.  The `-inf` / `inf` defaults
are rendered by the Option matches (an absent bound never excludes in the
plain case and never includes in the inverted case). -/
def variableFilter (values : List ℚ) (f : Filters) (indices : List Nat) : List Nat :=
  if f.Inv then
    indices.filter (fun i =>
      (match f.Min with
       | some lo => decide (values.getD i 0 < lo)
       | Option.none => false) ||
      (match f.Max with
       | some hi => decide (hi < values.getD i 0)
       | Option.none => false))
  else
    indices.filter (fun i =>
      (match f.Min with
       | some lo => decide (lo ≤ values.getD i 0)
       | Option.none => true) &&
      (match f.Max with
       | some hi => decide (values.getD i 0 ≤ hi)
       | Option.none => true))

/-- The length-bound sub-filter of the MultiArray branch: active only when
`MinLength` or `MaxLength` is given (the `length` flag in the source); the
bounds apply to `len(field.values[i])`, with the same Inv convention as the
Variable branch. -/
def maLengthFilter (values : List (List (List Nat))) (f : Filters)
    (indices : List Nat) : List Nat :=
  match f.MinLength, f.MaxLength with
  | Option.none, Option.none => indices
  | mn, mx =>
    if f.Inv then
      indices.filter (fun i =>
        (match mn with
         | some lo => decide (((values.getD i []).length : Int) < lo)
         | Option.none => false) ||
        (match mx with
         | some hi => decide (hi < ((values.getD i []).length : Int))
         | Option.none => false))
    else
      indices.filter (fun i =>
        (match mn with
         | some lo => decide (lo ≤ ((values.getD i []).length : Int))
         | Option.none => true) &&
        (match mx with
         | some hi => decide (((values.getD i []).length : Int) ≤ hi)
         | Option.none => true))

/-- The Keys sub-filter of the MultiArray branch: a record is kept when any
tuple of its value sequence has its `category_slot` entry in the effective
key set (complemented unless `Inv` is set, as for Category). -/
def maKeysFilter (keys : List String) (category_slot : Nat)
    (values : List (List (List Nat))) (f : Filters)
    (indices : List Nat) : Except String (List Nat) :=
  match f.Keys with
  | Option.none => .ok indices
  | some s => do
      let resolved ← resolveKeys keys s
      let eff := if f.Inv then resolved else complementKeys keys resolved
      .ok (indices.filter (fun i =>
        (values.getD i []).any (fun t => decide (t.getD category_slot 0 ∈ eff))))

/-- One iteration of the field loop of `filter_by_params`, dispatching on the
runtime type of the fetched field.  An Identifier field matches no isinstance
branch and leaves the index list unchanged. -/
def applyFieldFilter (field : FieldData) (f : Filters) (indices : List Nat) :
    Except String (List Nat) :=
  match field with
  | .Category keys values => categoryFilter keys values f indices
  | .Variable values => .ok (variableFilter values f indices)
  | .MultiArray keys slot values =>
      maKeysFilter keys slot values f (maLengthFilter values f indices)
  | .Identifier _ => .ok indices

/-- `filter_by_params`: fold the per-field filters over the index list in
parameter order (`registry` models `fetch_field`); when `invert_all` is set,
return the complement of the result within the initial index list. -/
def filter_by_params (registry : String → FieldData) (indices : List Nat)
    (params : List (String × Filters)) (invert_all : Bool) :
    Except String (List Nat) := do
  let all_indices := indices
  let result ← params.foldlM
    (fun idxs p => applyFieldFilter (registry p.1) p.2 idxs) indices
  if invert_all then
    pure (all_indices.filter (fun i => decide (i ∉ result)))
  else
    pure result

/-- `filter_by_json`: keep indices whose identifier is in (or, inverted, not
in) the explicit identifier set. -/
def filter_by_json (identifiers : List String) (indices : List Nat)
    (idSet : List String) (invert : Bool) : List Nat :=
  if invert then
    indices.filter (fun i => decide (identifiers.getD i "" ∉ idSet))
  else
    indices.filter (fun i => decide (identifiers.getD i "" ∈ idSet))

/-- The accepted parameter names per field type, `valid` in
`parse_params`; an unknown type raises KeyError (modelled by `Option.none`). -/
def validParams (ty : String) : Option (List String) :=
  if ty = "variable" then some ["Min", "Max", "Inv"]
  else if ty = "category" then some ["Keys", "Inv"]
  else if ty = "multiarray" then some ["Keys", "MinLength", "MaxLength", "Inv"]
  else Option.none

/-- Shape parsing of one raw parameter string: `key, value = string.split("=")`
then `field_id, param = key.split("--")`; either unpacking failing (fewer or
more than two pieces) raises ValueError, caught and turned into a skip. -/
def parseParamString (s : String) : Option (String × String × String) :=
  match pySplit s "=" with
  | [key, value] =>
    match pySplit key "--" with
    | [field_id, param] => some (field_id, param, value)
    | _ => Option.none
  | _ => Option.none

/-- Association-list lookup mirroring Python dict access. -/
def plookup {β : Type} : List (String × β) → String → Option β
  | [], _ => Option.none
  | (k, v) :: rest, key => if k = key then some v else plookup rest key

/-- Python dict update on an inner parameter map: replace the value of an
existing key in place, otherwise append the new entry. -/
def updAssoc : List (String × String) → String → String → List (String × String)
  | [], p, v => [(p, v)]
  | (p', v') :: rest, p, v =>
    if p' = p then (p, v) :: rest else (p', v') :: updAssoc rest p v

/-- `params[field_id].update(...)` on the outer defaultdict. -/
def updParams : List (String × List (String × String)) → String → String → String →
    List (String × List (String × String))
  | [], field_id, p, v => [(field_id, [(p, v)])]
  | (fid', sub) :: rest, field_id, p, v =>
    if fid' = field_id then (fid', updAssoc sub p v) :: rest
    else (fid', sub) :: updParams rest field_id p v

/-- One iteration of the string loop of `parse_params`.  `registry` models
`meta.has_field` / `meta.field_meta(...)["type"]`.  Unparseable strings,
unknown fields and invalid parameter names are skipped (with a warning in
the source); a field whose type is not in `valid` raises KeyError. -/
def parseParamStep (registry : String → Option String)
    (params : List (String × List (String × String))) (s : String) :
    Except String (List (String × List (String × String))) :=
  match parseParamString s with
  | Option.none => .ok params
  | some (field_id, param, value) =>
    match registry field_id with
    | Option.none => .ok params
    | some ty =>
      match validParams ty with
      | Option.none => .error "KeyError"
      | some ps =>
        if param ∈ ps then .ok (updParams params field_id param value)
        else .ok params

/-- `parse_params`: fold the per-string step over the raw strings, starting
from an empty mapping. -/
def parse_params (registry : String → Option String) (strings : List String) :
    Except String (List (String × List (String × String))) :=
  strings.foldlM (parseParamStep registry) []

/-- Two-level lookup into the parsed parameter mapping. -/
def lookupParam (m : List (String × List (String × String)))
    (field_id p : String) : Option String :=
  (plookup m field_id).bind (fun sub => plookup sub p)

/-- Modelled from the spec: a raw string is accepted exactly when it parses
as `fieldId--Param=value`, the field is in the registry, and the parameter
name is in the valid set for the field's type.  Used as the specification
side of the `parse_params` claim. -/
def acceptedTriple (registry : String → Option String) (s : String) :
    Option (String × String × String) :=
  match parseParamString s with
  | Option.none => Option.none
  | some (field_id, param, value) =>
    match registry field_id with
    | Option.none => Option.none
    | some ty =>
      match validParams ty with
      | Option.none => Option.none
      | some ps => if param ∈ ps then some (field_id, param, value) else Option.none

/-- Modelled from the spec: the value of the mapping at (field, param) is the
value of the last accepted string for that pair. -/
def lookupLast : List (String × String × String) → String → String → Option String
  | [], _, _ => Option.none
  | (fid', p', v) :: rest, field_id, p =>
    (lookupLast rest field_id p).or
      (if fid' = field_id ∧ p' = p then some v else Option.none)

/-- A written field value.  Category values are persisted expanded (the key
string); MultiArray values keep their tuple sequences. -/
inductive Value where
  | str (s : String)
  | num (q : ℚ)
  | tuples (ts : List (List Nat))
deriving DecidableEq

/-- Modelled from the spec: `expand_values` of the Field Model (its class
lives outside this repository's sources) — for Category the key string
rather than its index, for the other variants the stored values. -/
def expandValues : FieldData → List Value
  | .Identifier vals => vals.map Value.str
  | .Variable vals => vals.map Value.num
  | .Category keys vals => vals.map (fun v => Value.str (keys.getD v ""))
  | .MultiArray _ _ vals => vals.map Value.tuples

/-- Number of records stored by a field. -/
def fieldLen : FieldData → Nat
  | .Identifier vals => vals.length
  | .Variable vals => vals.length
  | .Category _ vals => vals.length
  | .MultiArray _ _ vals => vals.length

/-- One persisted output field: its subset values and, for Variable fields,
the recomputed range. -/
structure OutField where
  values : List Value
  range : Option (ℚ × ℚ)
deriving DecidableEq

/-- The output dataset assembled by `create_filtered_dataset`: cloned
metadata with new record count and origin, the derived assembly statistics
(`span`, `scaffold-count`) and the written fields in registry order. -/
structure OutDataset where
  records : Nat
  origin : String
  span : Option ℚ
  scaffold_count : Option Nat
  outFields : List (String × OutField)
deriving DecidableEq

/-- One entry of the source registry: field id, data, and whether the field
is a metadata-only children marker (skipped by the writer). -/
structure SourceEntry where
  field_id : String
  data : FieldData
  children : Bool
deriving DecidableEq

/-- A source dataset: its id and its field registry in iteration order. -/
structure SourceDataset where
  dataset_id : String
  fields : List SourceEntry
deriving DecidableEq

/-- Subset one field to the retained indices.  For a Variable field the
range is recomputed as `[min(values), max(values)]`, which raises ValueError
on an empty value list; Category and MultiArray fields are expanded first. -/
def writeField (idxs : List Nat) (data : FieldData) : Except String OutField :=
  match data with
  | .Variable vals =>
    let newVals := idxs.map (fun i => vals.getD i 0)
    match newVals.min?, newVals.max? with
    | some mn, some mx => .ok ⟨newVals.map Value.num, some (mn, mx)⟩
    | _, _ => .error "ValueError: min() arg is an empty sequence"
  | _ => .ok ⟨idxs.map (fun i => (expandValues data).getD i (Value.str "")), Option.none⟩

/-- One iteration of the field loop of `create_filtered_dataset`: skip
children markers, write the subset field, and for the Variable field with id
"length" update the derived assembly statistics. -/
def writerStep (idxs : List Nat) (out : OutDataset) (e : SourceEntry) :
    Except String OutDataset :=
  if e.children then .ok out
  else do
    let ov ← writeField idxs e.data
    let out1 : OutDataset :=
      { out with outFields := out.outFields ++ [(e.field_id, ov)] }
    match e.data with
    | .Variable vals =>
      if e.field_id = "length" then
        let newVals := idxs.map (fun i => vals.getD i 0)
        .ok { out1 with span := some newVals.sum,
                        scaffold_count := some idxs.length }
      else .ok out1
    | _ => .ok out1

/-- `create_filtered_dataset`: clone the metadata with
`records = len(indices)` and `origin = dataset_id`, then write every
non-children field of the source registry. -/
def create_filtered_dataset (ds : SourceDataset) (idxs : List Nat) :
    Except String OutDataset :=
  ds.fields.foldlM (writerStep idxs) ⟨idxs.length, ds.dataset_id, Option.none, Option.none, []⟩

/-- The index pipeline of `main`: enumerate all record positions, apply the
parameter filters only when the parsed parameter map is non-empty, then the
json identifier-list filter only when a json file is given. -/
def mainIndices (registry : String → FieldData) (identifiers : List String)
    (params : List (String × Filters)) (invert : Bool)
    (jsonIds : Option (List String)) : Except String (List Nat) := do
  let indices := List.range identifiers.length
  let indices ←
    if params.isEmpty then pure indices
    else filter_by_params registry indices params invert
  let indices :=
    match jsonIds with
    | Option.none => indices
    | some ids => filter_by_json identifiers indices ids invert
  pure indices

/-- Fuel-driven decimal logarithm: with enough fuel, the number of decimal
digits of n minus one. -/
def log10Aux : Nat → Nat → Nat
  | 0, _ => 0
  | f + 1, n => if n < 10 then 0 else log10Aux f (n / 10) + 1

/-- Decimal logarithm of a natural number (0 for n < 10). -/
def log10 (n : Nat) : Nat := log10Aux n n

/-- Decimal exponent of a positive rational: the e with 10^e ≤ q < 10^(e+1). -/
def decExp (q : ℚ) : Int :=
  if 1 ≤ q then (log10 ⌊q⌋.toNat : Int)
  else -(Nat.clog 10 ⌈q⁻¹⌉.toNat : Int)

/-- Rounding to `sig` significant figures, the exact-arithmetic model of the
`"%.3g"` float format. -/
def roundSig (sig : Nat) (q : ℚ) : ℚ :=
  if q = 0 then 0
  else
    let s : Int := decExp |q| - (sig - 1)
    (round (q / (10 : ℚ) ^ s) : ℤ) * (10 : ℚ) ^ s

/-- A summary statistic value: Python's int or float. -/
inductive SummaryNum where
  | int (z : ℤ)
  | rat (q : ℚ)
deriving DecidableEq

/-- The `spanOverN50` statistic of `main`: the ratio of the total hit span
to the total n50, formatted to 3 significant figures and coerced with
`int(...)` when the ratio is at least 100. -/
def spanOverN50 (span n50 : ℚ) : SummaryNum :=
  let ratio := span / n50
  if 100 ≤ ratio then .int ⌊roundSig 3 ratio⌋
  else .rat (roundSig 3 ratio)

/-- Concrete field-type registry used in evaluations. -/
def c6reg : String → Option String := fun fid =>
  if fid = "gc" then some "variable"
  else if fid = "phylum" then some "category"
  else Option.none

/-- Concrete five-record source dataset used in evaluations. -/
def c3ds : SourceDataset :=
  ⟨"blob_src",
   [⟨"identifiers", .Identifier ["a","b","c","d","e"], false⟩,
    ⟨"length", .Variable [10,20,30,40,50], false⟩,
    ⟨"phylum", .Category ["A","B"] [0,1,0,1,0], false⟩]⟩

/-- The dataset written from `c3ds` restricted to indices 0, 2, 4. -/
def c3out : OutDataset :=
  ⟨3, "blob_src", some 90, some 3,
   [("identifiers", ⟨[.str "a", .str "c", .str "e"], Option.none⟩),
    ("length", ⟨[.num 10, .num 30, .num 50], some (10, 50)⟩),
    ("phylum", ⟨[.str "A", .str "A", .str "A"], Option.none⟩)]⟩

theorem mem_filter_decide {α : Type} [DecidableEq α] (l : List α) (p : α → Prop)
    [DecidablePred p] (a : α) : a ∈ l.filter (fun x => decide (p x)) ↔ a ∈ l ∧ p a := by
  simp

theorem mem_complementKeys (keys : List String) (ks : List Nat) (v : Nat) :
    v ∈ complementKeys keys ks ↔ v < keys.length ∧ v ∉ ks := by
  simp [complementKeys]

theorem categoryFilter_some (keys : List String) (values : List Nat) (f : Filters)
    (s : String) (S : List Nat) (indices : List Nat)
    (hk : f.Keys = some s) (hr : resolveKeys keys s = .ok S) :
    categoryFilter keys values f indices =
      .ok (indices.filter (fun i => decide (values.getD i 0 ∈
        (if f.Inv then S else complementKeys keys S)))) := by
  simp only [categoryFilter, hk, hr]
  rfl

/-- C1: for a Category field filter with a Keys parameter resolving to the
candidate key-index list S, the retained indices are exactly those of the
current sequence whose category value lies in the effective retained set:
S itself when Inv is set, the complement of S within the field's keys when
Inv is not set. -/
theorem c1_category_keys_filter (keys : List String) (values : List Nat)
    (f : Filters) (s : String) (S : List Nat) (indices : List Nat)
    (hk : f.Keys = some s) (hr : resolveKeys keys s = .ok S) :
    ∃ out, categoryFilter keys values f indices = .ok out ∧
      ∀ i, i ∈ out ↔ i ∈ indices ∧
        (if f.Inv then values.getD i 0 ∈ S
         else values.getD i 0 < keys.length ∧ values.getD i 0 ∉ S) := by
  refine ⟨_, categoryFilter_some keys values f s S indices hk hr, fun i => ?_⟩
  cases hInv : f.Inv with
  | true => simp
  | false => simp [mem_complementKeys]

/-- C2: a Variable field filter retains exactly the indices whose value lies
in [Min, Max] (an absent bound imposing no constraint, i.e. -inf / inf) when
Inv is unset, and the indices whose value is below Min or above Max when Inv
is set; with no Min, no Max and no Inv it is the identity, and with Inv set
and no Min/Max it returns the empty sequence. -/
theorem c2_variable_filter (values : List ℚ) (f : Filters) (indices : List Nat) :
    (∀ i, i ∈ variableFilter values f indices ↔ i ∈ indices ∧
      (if f.Inv then
        (∃ lo, f.Min = some lo ∧ values.getD i 0 < lo) ∨
        (∃ hi, f.Max = some hi ∧ hi < values.getD i 0)
       else
        (∀ lo, f.Min = some lo → lo ≤ values.getD i 0) ∧
        (∀ hi, f.Max = some hi → values.getD i 0 ≤ hi))) ∧
    (f.Min = Option.none → f.Max = Option.none → f.Inv = false →
      variableFilter values f indices = indices) ∧
    (f.Min = Option.none → f.Max = Option.none → f.Inv = true →
      variableFilter values f indices = []) := by
  refine ⟨fun i => ?_, fun hmn hmx hinv => ?_, fun hmn hmx hinv => ?_⟩
  · cases hInv : f.Inv <;> cases hMin : f.Min <;> cases hMax : f.Max <;>
      simp [variableFilter, hInv, hMin, hMax]
  · simp [variableFilter, hmn, hmx, hinv]
  · simp [variableFilter, hmn, hmx, hinv]

/-- C4: with the global invert option set, the result of `filter_by_params`
is the complement, within the full initial index sequence, of the set that
the same parameter filters retain without global invert. -/
theorem c4_global_invert (registry : String → FieldData) (indices : List Nat)
    (params : List (String × Filters)) (mid : List Nat)
    (h : filter_by_params registry indices params false = .ok mid) :
    ∃ out, filter_by_params registry indices params true = .ok out ∧
      out = indices.filter (fun i => decide (i ∉ mid)) ∧
      ∀ i, i ∈ out ↔ i ∈ indices ∧ i ∉ mid := by
  simp only [filter_by_params] at h ⊢
  cases hf : params.foldlM (fun idxs p => applyFieldFilter (registry p.1) p.2 idxs) indices with
  | error e =>
    rw [hf] at h
    simp [Bind.bind, Except.bind] at h
  | ok r =>
    rw [hf] at h
    simp [Bind.bind, Except.bind, pure, Except.pure] at h
    subst h
    refine ⟨indices.filter (fun i => decide (i ∉ r)), ?_, rfl, fun i => by simp⟩
    simp [Bind.bind, Except.bind, pure, Except.pure]

theorem listIndex_mem (tok : String) (keys : List String) (h : tok ∈ keys) :
    ∃ n, listIndex tok keys = .ok n ∧ keys.get? n = some tok ∧
      ∀ m, m < n → keys.get? m ≠ some tok := by
  induction keys with
  | nil => simp at h
  | cons k ks ih =>
    by_cases hk : k = tok
    · exact ⟨0, by simp [listIndex, hk], by simp [hk], by omega⟩
    · have htok : tok ∈ ks := by
        rcases List.mem_cons.mp h with h1 | h1
        · exact absurd h1.symm hk
        · exact h1
      obtain ⟨n, hn, hget, hmin⟩ := ih htok
      refine ⟨n + 1, ?_, by simpa using hget, ?_⟩
      · simp [listIndex, hk, hn, Except.map]
      · intro m hm
        cases m with
        | zero => simpa using hk
        | succ m' => simpa using hmin m' (by omega)

theorem listIndex_not_mem (tok : String) (keys : List String) (h : tok ∉ keys) :
    ∃ e, listIndex tok keys = .error e := by
  induction keys with
  | nil => exact ⟨_, rfl⟩
  | cons k ks ih =>
    have hk : k ≠ tok := fun hh => h (hh ▸ List.mem_cons_self k ks)
    have htok : tok ∉ ks := fun hh => h (List.mem_cons_of_mem _ hh)
    obtain ⟨e, he⟩ := ih htok
    exact ⟨e, by simp [listIndex, hk, he, Except.map]⟩

/-- C7: a digit-string Keys token is used directly as a key index, bypassing
the name lookup entirely (the result does not depend on the keys list, so no
bounds check occurs); any other token is resolved to the position of its
first occurrence in the keys list, and resolution fails when the name is
absent. -/
theorem c7_keys_token (keys : List String) (tok : String) :
    (pyIsDigit tok = true →
      ∀ ks : List String, resolveKeyToken ks tok = .ok (pyToNat tok)) ∧
    (pyIsDigit tok = false → tok ∈ keys →
      ∃ n, resolveKeyToken keys tok = .ok n ∧ keys.get? n = some tok ∧
        ∀ m, m < n → keys.get? m ≠ some tok) ∧
    (pyIsDigit tok = false → tok ∉ keys →
      ∃ e, resolveKeyToken keys tok = .error e) := by
  refine ⟨fun hnat ks => by simp [resolveKeyToken, hnat],
    fun hnat hmem => ?_, fun hnat hmem => ?_⟩
  · obtain ⟨n, hn, hget, hmin⟩ := listIndex_mem tok keys hmem
    exact ⟨n, by simp [resolveKeyToken, hnat, hn], hget, hmin⟩
  · obtain ⟨e, he⟩ := listIndex_not_mem tok keys hmem
    exact ⟨e, by simp [resolveKeyToken, hnat, he]⟩

/-- C10: with an empty parsed parameter map and no identifier-list file, the
global invert flag has no effect: the index pipeline of main yields all N
record positions in ascending order for either value of the flag. -/
theorem c10_no_params_invert_noop (registry : String → FieldData)
    (identifiers : List String) (invert : Bool) :
    mainIndices registry identifiers [] invert Option.none =
      .ok (List.range identifiers.length) := by
  rfl

/-- C5: the MultiArray filter applies the optional length-bound sub-filter
(on the number of tuples of a record, with the Variable Inv convention) and
then the optional Keys sub-filter (with the Category complement/Inv
convention, a record being retained when any of its tuples has its
category_slot entry in the effective key set). -/
theorem c5_multiarray_filter (keys : List String) (slot : Nat)
    (values : List (List (List Nat))) (f : Filters) (indices : List Nat) :
    ((f.MinLength ≠ Option.none ∨ f.MaxLength ≠ Option.none) →
      ∀ i, i ∈ maLengthFilter values f indices ↔ i ∈ indices ∧
        (if f.Inv then
          (∃ lo, f.MinLength = some lo ∧ ((values.getD i []).length : Int) < lo) ∨
          (∃ hi, f.MaxLength = some hi ∧ hi < ((values.getD i []).length : Int))
         else
          (∀ lo, f.MinLength = some lo → lo ≤ ((values.getD i []).length : Int)) ∧
          (∀ hi, f.MaxLength = some hi → ((values.getD i []).length : Int) ≤ hi))) ∧
    (∀ s S, f.Keys = some s → resolveKeys keys s = .ok S →
      ∃ out, applyFieldFilter (.MultiArray keys slot values) f indices = .ok out ∧
        ∀ i, i ∈ out ↔ i ∈ maLengthFilter values f indices ∧
          ∃ t ∈ values.getD i [],
            (if f.Inv then t.getD slot 0 ∈ S
             else t.getD slot 0 < keys.length ∧ t.getD slot 0 ∉ S)) ∧
    (f.Keys = Option.none →
      applyFieldFilter (.MultiArray keys slot values) f indices =
        .ok (maLengthFilter values f indices)) := by
  refine ⟨fun hlen i => ?_, fun s S hk hr => ?_, fun hk => ?_⟩
  · rcases hmn : f.MinLength with _ | lo <;> rcases hmx : f.MaxLength with _ | hi
    · rw [hmn, hmx] at hlen; simp at hlen
    all_goals cases hInv : f.Inv <;> simp [maLengthFilter, hmn, hmx, hInv]
  · refine ⟨(maLengthFilter values f indices).filter
        (fun i => (values.getD i []).any (fun t =>
          decide (t.getD slot 0 ∈ (if f.Inv then S else complementKeys keys S)))),
        ?_, fun i => ?_⟩
    · show maKeysFilter keys slot values f (maLengthFilter values f indices) = _
      simp only [maKeysFilter, hk, hr]
      rfl
    · cases hInv : f.Inv <;> simp [mem_complementKeys, hInv]
  · show maKeysFilter keys slot values f (maLengthFilter values f indices) = _
    simp [maKeysFilter, hk]

theorem plookup_updAssoc (sub : List (String × String)) (p v p' : String) :
    plookup (updAssoc sub p v) p' = if p' = p then some v else plookup sub p' := by
  induction sub with
  | nil =>
    by_cases hp : p' = p
    · simp [updAssoc, plookup, hp]
    · have hp2 : ¬p = p' := fun h => hp h.symm
      simp [updAssoc, plookup, hp, hp2]
  | cons head rest ih =>
    obtain ⟨q, w⟩ := head
    by_cases hq : q = p
    · subst hq
      by_cases hp : p' = q
      · subst hp
        simp [updAssoc, plookup]
      · have hp2 : ¬q = p' := fun h => hp h.symm
        simp [updAssoc, plookup, hp, hp2]
    · by_cases hqp : q = p'
      · subst hqp
        simp [updAssoc, hq, plookup]
      · simp [updAssoc, hq, plookup, hqp, ih]

theorem plookup_updParams (m : List (String × List (String × String)))
    (fid p v fid' : String) :
    plookup (updParams m fid p v) fid' =
      if fid' = fid then some (updAssoc ((plookup m fid).getD []) p v)
      else plookup m fid' := by
  induction m with
  | nil =>
    by_cases hf : fid' = fid
    · simp [updParams, plookup, hf, updAssoc]
    · have hf2 : ¬fid = fid' := fun h => hf h.symm
      simp [updParams, plookup, hf, hf2]
  | cons head rest ih =>
    obtain ⟨g, sub⟩ := head
    by_cases hg : g = fid
    · subst hg
      by_cases hf : fid' = g
      · subst hf
        simp [updParams, plookup]
      · have hf2 : ¬g = fid' := fun h => hf h.symm
        simp [updParams, plookup, hf, hf2]
    · by_cases hgf : g = fid'
      · subst hgf
        simp [updParams, hg, plookup]
      · simp [updParams, hg, plookup, hgf, ih]

theorem lookupParam_updParams (m : List (String × List (String × String)))
    (fid p v fid' p' : String) :
    lookupParam (updParams m fid p v) fid' p' =
      if fid' = fid ∧ p' = p then some v else lookupParam m fid' p' := by
  rw [lookupParam, lookupParam, plookup_updParams]
  by_cases hf : fid' = fid
  · rw [if_pos hf, Option.some_bind, plookup_updAssoc]
    by_cases hp : p' = p
    · rw [if_pos hp, if_pos ⟨hf, hp⟩]
    · rw [if_neg hp, if_neg (fun h => hp h.2)]
      subst hf
      cases hm : plookup m fid' with
      | none => simp [hm, plookup]
      | some sub => simp [hm]
  · rw [if_neg hf, if_neg (fun h => hf h.1)]

theorem parse_loop_spec (registry : String → Option String)
    (hreg : ∀ fid ty, registry fid = some ty → (validParams ty).isSome) :
    ∀ (strings : List String) (acc : List (String × List (String × String))),
      ∃ res, List.foldlM (parseParamStep registry) acc strings = .ok res ∧
        ∀ fid p, lookupParam res fid p =
          (lookupLast (strings.filterMap (acceptedTriple registry)) fid p).or
            (lookupParam acc fid p) := by
  intro strings
  induction strings with
  | nil =>
    intro acc
    exact ⟨acc, rfl, fun fid p => by simp [lookupLast]⟩
  | cons s rest ih =>
    intro acc
    cases hps : parseParamString s with
    | none =>
      obtain ⟨res, h1, h2⟩ := ih acc
      refine ⟨res, ?_, fun fid p => ?_⟩
      · simp [List.foldlM, parseParamStep, hps, h1, Bind.bind, Except.bind]
      · simp [acceptedTriple, hps, h2]
    | some triple =>
      obtain ⟨fid0, p0, v0⟩ := triple
      cases hr : registry fid0 with
      | none =>
        obtain ⟨res, h1, h2⟩ := ih acc
        refine ⟨res, ?_, fun fid p => ?_⟩
        · simp [List.foldlM, parseParamStep, hps, hr, h1, Bind.bind, Except.bind]
        · simp [acceptedTriple, hps, hr, h2]
      | some ty =>
        obtain ⟨ps, hps2⟩ := Option.isSome_iff_exists.mp (hreg fid0 ty hr)
        by_cases hmem : p0 ∈ ps
        · obtain ⟨res, h1, h2⟩ := ih (updParams acc fid0 p0 v0)
          refine ⟨res, ?_, fun fid p => ?_⟩
          · simp [List.foldlM, parseParamStep, hps, hr, hps2, hmem, h1, Bind.bind, Except.bind]
          · rw [h2 fid p, lookupParam_updParams]
            have hacc : (s :: rest).filterMap (acceptedTriple registry) =
                (fid0, p0, v0) :: rest.filterMap (acceptedTriple registry) := by
              simp [acceptedTriple, hps, hr, hps2, hmem]
            rw [hacc]
            simp only [lookupLast]
            by_cases hc : fid = fid0 ∧ p = p0
            · obtain ⟨hc1, hc2⟩ := hc
              subst hc1; subst hc2
              rw [if_pos ⟨rfl, rfl⟩, if_pos ⟨rfl, rfl⟩]
              cases hl : lookupLast (rest.filterMap (acceptedTriple registry)) fid p <;>
                simp [Option.or]
            · have hc' : ¬(fid0 = fid ∧ p0 = p) := fun h => hc ⟨h.1.symm, h.2.symm⟩
              rw [if_neg hc, if_neg hc']
              cases hl : lookupLast (rest.filterMap (acceptedTriple registry)) fid p <;>
                simp [Option.or]
        · obtain ⟨res, h1, h2⟩ := ih acc
          refine ⟨res, ?_, fun fid p => ?_⟩
          · simp [List.foldlM, parseParamStep, hps, hr, hps2, hmem, h1, Bind.bind, Except.bind]
          · simp [acceptedTriple, hps, hr, hps2, hmem, h2]

/-- C6: parse_params never aborts on malformed strings: a raw string that
does not split as key=value on "=", or whose key does not split as
fieldId--Param on "--", or whose field is unknown, or whose parameter name
is not valid for the field's type, is dropped; the result maps each
field and parameter name to the value of the last accepted string for that
pair, and nothing else. -/
theorem c6_parse_params (registry : String → Option String) (strings : List String)
    (hreg : ∀ fid ty, registry fid = some ty → (validParams ty).isSome) :
    ∃ res, parse_params registry strings = .ok res ∧
      ∀ fid p, lookupParam res fid p =
        lookupLast (strings.filterMap (acceptedTriple registry)) fid p := by
  obtain ⟨res, h1, h2⟩ := parse_loop_spec registry hreg strings []
  refine ⟨res, h1, fun fid p => ?_⟩
  rw [h2 fid p]
  simp [lookupParam, plookup]

theorem getD_map_of_lt {α β : Type} (f : α → β) (l : List α) (i : Nat)
    (hi : i < l.length) (d : β) (d' : α) :
    (l.map f).getD i d = f (l.getD i d') := by
  rw [List.getD_eq_getElem?_getD, List.getD_eq_getElem?_getD, List.getElem?_map]
  rw [List.getElem?_eq_getElem hi]
  rfl

theorem writeField_values (idxs : List Nat) (data : FieldData) (ov : OutField)
    (h : writeField idxs data = .ok ov)
    (hval : ∀ i ∈ idxs, i < fieldLen data) :
    ov.values = idxs.map (fun i => (expandValues data).getD i (Value.str "")) ∧
    ∀ vals, data = FieldData.Variable vals →
      ∃ mn mx, (idxs.map (fun i => vals.getD i 0)).min? = some mn ∧
        (idxs.map (fun i => vals.getD i 0)).max? = some mx ∧
        ov.range = some (mn, mx) := by
  cases data with
  | Variable vals =>
    simp only [writeField] at h
    cases hmn : (idxs.map (fun i => vals.getD i 0)).min? with
    | none => rw [hmn] at h; simp at h
    | some mn =>
      cases hmx : (idxs.map (fun i => vals.getD i 0)).max? with
      | none => rw [hmn, hmx] at h; simp at h
      | some mx =>
        rw [hmn, hmx] at h
        simp only [Except.ok.injEq] at h
        subst h
        constructor
        · show (idxs.map (fun i => vals.getD i 0)).map Value.num = _
          rw [List.map_map]
          refine List.map_congr_left (fun i hi => ?_)
          show Value.num (vals.getD i 0) = (expandValues (FieldData.Variable vals)).getD i (Value.str "")
          rw [expandValues, getD_map_of_lt Value.num vals i (hval i hi) (Value.str "") 0]
        · intro vals' hv
          cases hv
          exact ⟨mn, mx, hmn, hmx, rfl⟩
  | Identifier vals =>
    simp only [writeField, Except.ok.injEq] at h
    subst h
    exact ⟨rfl, fun vals' hv => by cases hv⟩
  | Category keys vals =>
    simp only [writeField, Except.ok.injEq] at h
    subst h
    exact ⟨rfl, fun vals' hv => by cases hv⟩
  | MultiArray keys slot vals =>
    simp only [writeField, Except.ok.injEq] at h
    subst h
    exact ⟨rfl, fun vals' hv => by cases hv⟩

theorem writerStep_shape (idxs : List Nat) (acc : OutDataset) (fid : String)
    (data : FieldData) (ov : OutField) (acc' : OutDataset)
    (hwf : writeField idxs data = .ok ov)
    (hstep : writerStep idxs acc ⟨fid, data, false⟩ = .ok acc') :
    acc'.records = acc.records ∧ acc'.origin = acc.origin ∧
    acc'.outFields = acc.outFields ++ [(fid, ov)] := by
  cases data with
  | Variable vals =>
    by_cases hfid : fid = "length"
    · subst hfid
      simp only [writerStep, Bool.false_eq_true, if_false, hwf, Bind.bind,
        Except.bind, if_pos rfl] at hstep
      rw [if_pos trivial] at hstep
      simp only [Except.ok.injEq] at hstep
      subst hstep
      simp
    · simp only [writerStep, Bool.false_eq_true, if_false, hwf, Bind.bind,
        Except.bind, hfid, if_false, Except.ok.injEq] at hstep
      subst hstep
      simp
  | Identifier vals =>
    simp only [writerStep, Bool.false_eq_true, if_false, hwf, Bind.bind,
      Except.bind, Except.ok.injEq] at hstep
    subst hstep; simp
  | Category keys vals =>
    simp only [writerStep, Bool.false_eq_true, if_false, hwf, Bind.bind,
      Except.bind, Except.ok.injEq] at hstep
    subst hstep; simp
  | MultiArray keys slot vals =>
    simp only [writerStep, Bool.false_eq_true, if_false, hwf, Bind.bind,
      Except.bind, Except.ok.injEq] at hstep
    subst hstep; simp

theorem writerStep_span_unchanged (idxs : List Nat) (acc : OutDataset)
    (e : SourceEntry) (acc' : OutDataset)
    (hstep : writerStep idxs acc e = .ok acc')
    (hne : ¬(e.field_id = "length" ∧ e.children = false ∧
      ∃ vals, e.data = FieldData.Variable vals)) :
    acc'.span = acc.span ∧ acc'.scaffold_count = acc.scaffold_count := by
  obtain ⟨fid, data, ch⟩ := e
  cases ch with
  | true =>
    simp [writerStep] at hstep
    subst hstep; exact ⟨rfl, rfl⟩
  | false =>
    cases hwf : writeField idxs data with
    | error err =>
      simp [writerStep, hwf, Bind.bind, Except.bind] at hstep
    | ok ov =>
      cases data with
      | Variable vals =>
        have hfid : ¬fid = "length" := by
          intro hf
          exact hne ⟨hf, rfl, vals, rfl⟩
        simp only [writerStep, Bool.false_eq_true, if_false, hwf, Bind.bind,
          Except.bind, hfid, if_false, Except.ok.injEq] at hstep
        subst hstep; exact ⟨rfl, rfl⟩
      | Identifier vals =>
        simp only [writerStep, Bool.false_eq_true, if_false, hwf, Bind.bind,
          Except.bind, Except.ok.injEq] at hstep
        subst hstep; exact ⟨rfl, rfl⟩
      | Category keys vals =>
        simp only [writerStep, Bool.false_eq_true, if_false, hwf, Bind.bind,
          Except.bind, Except.ok.injEq] at hstep
        subst hstep; exact ⟨rfl, rfl⟩
      | MultiArray keys slot vals =>
        simp only [writerStep, Bool.false_eq_true, if_false, hwf, Bind.bind,
          Except.bind, Except.ok.injEq] at hstep
        subst hstep; exact ⟨rfl, rfl⟩

theorem writerStep_span_length (idxs : List Nat) (acc : OutDataset)
    (vals : List ℚ) (acc' : OutDataset)
    (hstep : writerStep idxs acc ⟨"length", FieldData.Variable vals, false⟩ = .ok acc') :
    acc'.span = some ((idxs.map (fun i => vals.getD i 0)).sum) ∧
    acc'.scaffold_count = some idxs.length := by
  cases hwf : writeField idxs (FieldData.Variable vals) with
  | error err =>
    simp [writerStep, hwf, Bind.bind, Except.bind] at hstep
  | ok ov =>
    simp only [writerStep, Bool.false_eq_true, if_false, hwf, Bind.bind,
      Except.bind, if_pos rfl] at hstep
    rw [if_pos trivial] at hstep
    simp only [Except.ok.injEq] at hstep
    subst hstep
    exact ⟨rfl, rfl⟩

theorem writerStep_children_id (idxs : List Nat) (acc : OutDataset)
    (e : SourceEntry) (acc' : OutDataset) (hch : e.children = true)
    (hstep : writerStep idxs acc e = .ok acc') : acc' = acc := by
  simp [writerStep, hch] at hstep
  exact hstep.symm

theorem writerStep_writeField_ok (idxs : List Nat) (acc : OutDataset)
    (e : SourceEntry) (acc' : OutDataset) (hch : e.children = false)
    (hstep : writerStep idxs acc e = .ok acc') :
    ∃ ov, writeField idxs e.data = .ok ov := by
  cases hwf : writeField idxs e.data with
  | error err =>
    rw [writerStep, hch] at hstep
    simp [hwf, Bind.bind, Except.bind] at hstep
  | ok ov => exact ⟨ov, rfl⟩

theorem writer_fold (idxs : List Nat) :
    ∀ (fields : List SourceEntry) (acc out : OutDataset),
      List.foldlM (writerStep idxs) acc fields = .ok out →
      out.records = acc.records ∧ out.origin = acc.origin ∧
      (∀ x, x ∈ acc.outFields → x ∈ out.outFields) ∧
      (∀ e, e ∈ fields → e.children = false →
        ∃ ov, writeField idxs e.data = .ok ov ∧ (e.field_id, ov) ∈ out.outFields) := by
  intro fields
  induction fields with
  | nil =>
    intro acc out h
    have : acc = out := by simpa [List.foldlM, pure, Except.pure] using h
    subst this
    exact ⟨rfl, rfl, fun x hx => hx, fun e he => by simp at he⟩
  | cons e rest ih =>
    intro acc out h
    cases hstep : writerStep idxs acc e with
    | error err =>
      simp [List.foldlM, hstep, Bind.bind, Except.bind] at h
    | ok acc' =>
      have h' : List.foldlM (writerStep idxs) acc' rest = .ok out := by
        simpa [List.foldlM, hstep, Bind.bind, Except.bind] using h
      obtain ⟨hrec, horig, hmono, hflds⟩ := ih acc' out h'
      cases hch : e.children with
      | true =>
        have hacc : acc' = acc := writerStep_children_id idxs acc e acc' hch hstep
        subst hacc
        refine ⟨hrec, horig, hmono, fun e' he' hch' => ?_⟩
        rcases List.mem_cons.mp he' with he' | he'
        · subst he'; rw [hch] at hch'; cases hch'
        · exact hflds e' he' hch'
      | false =>
        obtain ⟨ov, hwf⟩ := writerStep_writeField_ok idxs acc e acc' hch hstep
        obtain ⟨fid, data, ch⟩ := e
        simp only at hch
        subst hch
        obtain ⟨hrec', horig', hout'⟩ :=
          writerStep_shape idxs acc fid data ov acc' hwf hstep
        refine ⟨hrec.trans hrec', horig.trans horig', ?_, ?_⟩
        · intro x hx
          exact hmono x (by rw [hout']; exact List.mem_append_left _ hx)
        · intro e' he' hch'
          rcases List.mem_cons.mp he' with he' | he'
          · subst he'
            refine ⟨ov, hwf, hmono _ ?_⟩
            rw [hout']
            exact List.mem_append_right _ (List.mem_singleton.mpr rfl)
          · exact hflds e' he' hch'

theorem writer_fold_span_unchanged (idxs : List Nat) :
    ∀ (fields : List SourceEntry) (acc out : OutDataset),
      List.foldlM (writerStep idxs) acc fields = .ok out →
      (∀ e, e ∈ fields → ¬(e.field_id = "length" ∧ e.children = false ∧
        ∃ vals, e.data = FieldData.Variable vals)) →
      out.span = acc.span ∧ out.scaffold_count = acc.scaffold_count := by
  intro fields
  induction fields with
  | nil =>
    intro acc out h hne
    have : acc = out := by simpa [List.foldlM, pure, Except.pure] using h
    subst this
    exact ⟨rfl, rfl⟩
  | cons e rest ih =>
    intro acc out h hne
    cases hstep : writerStep idxs acc e with
    | error err =>
      simp [List.foldlM, hstep, Bind.bind, Except.bind] at h
    | ok acc' =>
      have h' : List.foldlM (writerStep idxs) acc' rest = .ok out := by
        simpa [List.foldlM, hstep, Bind.bind, Except.bind] using h
      obtain ⟨h1, h2⟩ := writerStep_span_unchanged idxs acc e acc' hstep
        (hne e (List.mem_cons_self e rest))
      obtain ⟨h3, h4⟩ := ih acc' out h'
        (fun e' he' => hne e' (List.mem_cons_of_mem _ he'))
      exact ⟨h3.trans h1, h4.trans h2⟩

theorem writer_fold_span_length (idxs : List Nat) :
    ∀ (fields : List SourceEntry) (acc out : OutDataset) (vals : List ℚ),
      List.foldlM (writerStep idxs) acc fields = .ok out →
      (⟨"length", FieldData.Variable vals, false⟩ : SourceEntry) ∈ fields →
      (fields.map SourceEntry.field_id).Nodup →
      out.span = some ((idxs.map (fun i => vals.getD i 0)).sum) ∧
      out.scaffold_count = some idxs.length := by
  intro fields
  induction fields with
  | nil =>
    intro acc out vals h hmem
    simp at hmem
  | cons e rest ih =>
    intro acc out vals h hmem hnd
    cases hstep : writerStep idxs acc e with
    | error err =>
      simp [List.foldlM, hstep, Bind.bind, Except.bind] at h
    | ok acc' =>
      have h' : List.foldlM (writerStep idxs) acc' rest = .ok out := by
        simpa [List.foldlM, hstep, Bind.bind, Except.bind] using h
      have hnd1 : e.field_id ∉ rest.map SourceEntry.field_id :=
        (List.nodup_cons.mp hnd).1
      have hnd2 : (rest.map SourceEntry.field_id).Nodup :=
        (List.nodup_cons.mp hnd).2
      rcases List.mem_cons.mp hmem with hhd | htl
      · subst hhd
        obtain ⟨h1, h2⟩ := writerStep_span_length idxs acc vals acc' hstep
        obtain ⟨h3, h4⟩ := writer_fold_span_unchanged idxs rest acc' out h'
          (fun e' he' hbad => by
            apply hnd1
            rw [← hbad.1]
            exact List.mem_map.mpr ⟨e', he', rfl⟩)
        exact ⟨h3.trans h1, h4.trans h2⟩
      · have hefid : e.field_id ≠ "length" := by
          intro hf
          apply hnd1
          rw [hf]
          exact List.mem_map.mpr ⟨_, htl, rfl⟩
        obtain ⟨h1, h2⟩ := writerStep_span_unchanged idxs acc e acc' hstep
          (fun hbad => hefid hbad.1)
        have := ih acc' out vals h' htl hnd2
        exact this

/-- C3: a successful `create_filtered_dataset` run writes a dataset with
record count equal to the number of retained indices, origin equal to the
source dataset id; every persisted (non-children-marker) field's written
values are the expanded source values at the retained indices in retained
order, every Variable field's range is recomputed as the min and max of the
retained values, and the Variable field with id "length" additionally sets
span to the sum of its retained values and scaffold-count to the retained
count on the output metadata. -/
theorem c3_create_filtered_dataset (ds : SourceDataset) (idxs : List Nat)
    (out : OutDataset)
    (h : create_filtered_dataset ds idxs = .ok out)
    (hval : ∀ e, e ∈ ds.fields → ∀ i, i ∈ idxs → i < fieldLen e.data)
    (hnodup : (ds.fields.map SourceEntry.field_id).Nodup) :
    out.records = idxs.length ∧
    out.origin = ds.dataset_id ∧
    (∀ e, e ∈ ds.fields → e.children = false →
      ∃ ov, (e.field_id, ov) ∈ out.outFields ∧
        ov.values = idxs.map (fun i => (expandValues e.data).getD i (Value.str "")) ∧
        ∀ vals, e.data = FieldData.Variable vals →
          ∃ mn mx, (idxs.map (fun i => vals.getD i 0)).min? = some mn ∧
            (idxs.map (fun i => vals.getD i 0)).max? = some mx ∧
            ov.range = some (mn, mx)) ∧
    (∀ vals, (⟨"length", FieldData.Variable vals, false⟩ : SourceEntry) ∈ ds.fields →
      out.span = some ((idxs.map (fun i => vals.getD i 0)).sum) ∧
      out.scaffold_count = some idxs.length) := by
  obtain ⟨hrec, horig, _, hflds⟩ := writer_fold idxs ds.fields _ out h
  refine ⟨hrec, horig, fun e he hch => ?_, fun vals hmem =>
    writer_fold_span_length idxs ds.fields _ out vals h hmem hnodup⟩
  obtain ⟨ov, hwf, hovmem⟩ := hflds e he hch
  obtain ⟨hvals, hrange⟩ := writeField_values idxs e.data ov hwf (hval e he)
  exact ⟨ov, hovmem, hvals, hrange⟩

theorem writer_fold_error_of_variable :
    ∀ (fields : List SourceEntry) (acc : OutDataset),
      (∃ e, e ∈ fields ∧ e.children = false ∧
        ∃ vals, e.data = FieldData.Variable vals) →
      ∃ msg, List.foldlM (writerStep []) acc fields = .error msg := by
  intro fields
  induction fields with
  | nil =>
    intro acc h
    obtain ⟨e, hmem, _⟩ := h
    simp at hmem
  | cons f rest ih =>
    intro acc h
    obtain ⟨e, hmem, hch, vals, hdata⟩ := h
    rcases List.mem_cons.mp hmem with hhd | htl
    · subst hhd
      have hwf : writeField [] e.data = .error "ValueError: min() arg is an empty sequence" := by
        rw [hdata]
        rfl
      have hstep : writerStep [] acc e = .error "ValueError: min() arg is an empty sequence" := by
        rw [writerStep]
        simp only [hch, Bool.false_eq_true, if_false, hwf, Bind.bind, Except.bind]
      exact ⟨"ValueError: min() arg is an empty sequence",
        by simp [List.foldlM, hstep, Bind.bind, Except.bind]⟩
    · cases hstep : writerStep [] acc f with
      | error err =>
        exact ⟨err, by simp [List.foldlM, hstep, Bind.bind, Except.bind]⟩
      | ok acc' =>
        obtain ⟨msg, hmsg⟩ := ih acc' ⟨e, htl, hch, vals, hdata⟩
        exact ⟨msg, by simp [List.foldlM, hstep, Bind.bind, Except.bind, hmsg]⟩

/-- C9: with an empty retained index sequence and at least one persisted
Variable field in the source registry, `create_filtered_dataset` fails (the
min of the empty extracted value list raises) instead of producing an
output dataset. -/
theorem c9_empty_indices_error (ds : SourceDataset)
    (hvar : ∃ e, e ∈ ds.fields ∧ e.children = false ∧
      ∃ vals, e.data = FieldData.Variable vals) :
    ∃ msg, create_filtered_dataset ds [] = .error msg := by
  rw [create_filtered_dataset]
  exact writer_fold_error_of_variable ds.fields _ hvar

theorem log10Aux_pos (f n : Nat) (hn : 10 ≤ n) : 1 ≤ log10Aux (f + 1) n := by
  rw [log10Aux, if_neg (by omega)]
  omega

theorem log10_ge_two (n : Nat) (hn : 100 ≤ n) : 2 ≤ log10 n := by
  obtain ⟨f, rfl⟩ : ∃ f, n = f + 1 := ⟨n - 1, by omega⟩
  rw [log10, log10Aux, if_neg (by omega)]
  obtain ⟨g, hg⟩ : ∃ g, f = g + 1 := ⟨f - 1, by omega⟩
  subst hg
  have h1 : 10 ≤ (g + 1 + 1) / 10 := by omega
  have := log10Aux_pos g ((g + 1 + 1) / 10) h1
  omega

theorem round_mul_zpow_int (q : ℚ) (E : ℤ) (hE : 0 ≤ E) :
    ∃ z : ℤ, (round (q / (10 : ℚ) ^ E) : ℚ) * (10 : ℚ) ^ E = (z : ℚ) := by
  obtain ⟨k, rfl⟩ : ∃ k : ℕ, E = (k : ℤ) := ⟨E.toNat, (Int.toNat_of_nonneg hE).symm⟩
  refine ⟨round (q / (10 : ℚ) ^ ((k : ℤ))) * 10 ^ k, ?_⟩
  rw [zpow_natCast]
  push_cast
  ring

theorem roundSig_int_of_ge_100 (q : ℚ) (hq : 100 ≤ q) :
    ∃ z : ℤ, roundSig 3 q = (z : ℚ) := by
  have hq0 : q ≠ 0 := by intro h; rw [h] at hq; norm_num at hq
  have habs : |q| = q := abs_of_pos (by linarith)
  have hdec : 2 ≤ decExp q := by
    rw [decExp, if_pos (by linarith)]
    have hfl : (100 : ℤ) ≤ ⌊q⌋ := by
      rw [Int.le_floor]
      exact_mod_cast hq
    have h100 : 100 ≤ ⌊q⌋.toNat := by omega
    have := log10_ge_two _ h100
    exact_mod_cast this
  rw [roundSig, if_neg hq0]
  apply round_mul_zpow_int
  rw [habs]
  push_cast
  omega

/-- C8: the spanOverN50 statistic equals total_span / total_n50 rounded to 3
significant figures; when the ratio is at least 100 it is reported as an
integer whose value is exactly that rounding, otherwise as the rounded
rational itself. -/
theorem c8_spanOverN50 (span n50 : ℚ) :
    (100 ≤ span / n50 →
      ∃ z : ℤ, spanOverN50 span n50 = .int z ∧ (z : ℚ) = roundSig 3 (span / n50)) ∧
    (¬100 ≤ span / n50 →
      spanOverN50 span n50 = .rat (roundSig 3 (span / n50))) := by
  constructor
  · intro h
    obtain ⟨z, hz⟩ := roundSig_int_of_ge_100 _ h
    refine ⟨z, ?_, hz.symm⟩
    simp only [spanOverN50, if_pos h]
    rw [hz, Int.floor_intCast]
  · intro h
    simp only [spanOverN50, if_neg h]

theorem roundSig_million_4300 : roundSig 3 ((1000000 : ℚ) / 4300) = 233 := by
  have hq : ((1000000 : ℚ) / 4300) = 10000 / 43 := by norm_num
  rw [hq, roundSig, if_neg (by norm_num)]
  have habs : |(10000 / 43 : ℚ)| = 10000 / 43 := by
    rw [abs_of_pos]
    norm_num
  rw [habs]
  have hfl : ⌊(10000 / 43 : ℚ)⌋ = 232 := by norm_num
  have hdec : decExp (10000 / 43 : ℚ) = 2 := by
    rw [decExp, if_pos (by norm_num), hfl]
    rfl
  rw [hdec]
  norm_num
  rw [round_eq]
  norm_num

theorem c1_witness :
    resolveKeys ["A","B","C"] "0" = .ok [0] ∧
    (∃ out, categoryFilter ["A","B","C"] [0,1,2,0,1]
        ⟨false, some "0", Option.none, Option.none, Option.none, Option.none⟩
        [0,1,2,3,4] = .ok out ∧ out = [1,2,4]) ∧
    categoryFilter ["A","B","C"] [0,1,2,0,1]
        ⟨true, some "0", Option.none, Option.none, Option.none, Option.none⟩
        [0,1,2,3,4] = .ok [0,3] := by
  refine ⟨by decide, ?_, by decide⟩
  obtain ⟨out, hout, hmem⟩ := c1_category_keys_filter ["A","B","C"] [0,1,2,0,1]
    ⟨false, some "0", Option.none, Option.none, Option.none, Option.none⟩
    "0" [0] [0,1,2,3,4] rfl (by decide)
  have hval : categoryFilter ["A","B","C"] [0,1,2,0,1]
      ⟨false, some "0", Option.none, Option.none, Option.none, Option.none⟩
      [0,1,2,3,4] = .ok [1,2,4] := by decide
  rw [hout] at hval
  exact ⟨out, hout, by simpa using hval⟩

theorem c2_witness :
    variableFilter [5,6,7] Filters.none [0,1,2] = [0,1,2] ∧
    variableFilter [5,6,7]
      ⟨true, Option.none, Option.none, Option.none, Option.none, Option.none⟩
      [0,1,2] = [] := by
  exact ⟨(c2_variable_filter [5,6,7] Filters.none [0,1,2]).2.1 rfl rfl rfl,
    (c2_variable_filter [5,6,7]
      ⟨true, Option.none, Option.none, Option.none, Option.none, Option.none⟩
      [0,1,2]).2.2 rfl rfl rfl⟩

theorem c4_witness :
    ∃ out, filter_by_params (fun _ => .Variable [0,1,0,1,0]) [0,1,2,3,4]
        [("x", ⟨false, Option.none, some 1, Option.none, Option.none, Option.none⟩)]
        true = .ok out ∧ out = [0,2,4] := by
  obtain ⟨out, h1, h2, h3⟩ := c4_global_invert (fun _ => .Variable [0,1,0,1,0])
    [0,1,2,3,4]
    [("x", ⟨false, Option.none, some 1, Option.none, Option.none, Option.none⟩)]
    [1,3] (by decide)
  refine ⟨out, h1, ?_⟩
  rw [h2]
  rfl

theorem c5_witness :
    maLengthFilter [[[0],[1]]]
      ⟨false, Option.none, Option.none, Option.none, some 3, Option.none⟩ [0] = [] ∧
    maLengthFilter [[[0],[1]]]
      ⟨false, Option.none, Option.none, Option.none, Option.none, some 2⟩ [0] = [0] ∧
    ∃ out, applyFieldFilter (.MultiArray ["A","B"] 0 [[[0],[1]],[[0]]])
      ⟨false, some "0", Option.none, Option.none, Option.none, Option.none⟩
      [0,1] = .ok out ∧ out = [0] := by
  refine ⟨by decide, by decide, ?_⟩
  obtain ⟨out, hout, hmem⟩ := (c5_multiarray_filter ["A","B"] 0 [[[0],[1]],[[0]]]
    ⟨false, some "0", Option.none, Option.none, Option.none, Option.none⟩
    [0,1]).2.1 "0" [0] rfl (by decide)
  have hval : applyFieldFilter (.MultiArray ["A","B"] 0 [[[0],[1]],[[0]]])
      ⟨false, some "0", Option.none, Option.none, Option.none, Option.none⟩
      [0,1] = .ok [0] := by decide
  rw [hout] at hval
  exact ⟨out, hout, by simpa using hval⟩

theorem c6_witness :
    (∀ fid ty, c6reg fid = some ty → (validParams ty).isSome) ∧
    ∃ res, parse_params c6reg
        ["gc--Min=0.3", "bad", "a=b=c", "gc--Max=0.7", "zz--Min=2",
         "gc--Nope=1", "gc--Min=0.4"] = .ok res ∧
      lookupParam res "gc" "Min" = some "0.4" ∧
      lookupParam res "gc" "Max" = some "0.7" ∧
      lookupParam res "gc" "Nope" = Option.none ∧
      lookupParam res "zz" "Min" = Option.none := by
  have hreg : ∀ fid ty, c6reg fid = some ty → (validParams ty).isSome := by
    intro fid ty h
    by_cases h1 : fid = "gc"
    · rw [c6reg] at h
      rw [if_pos h1] at h
      cases h
      decide
    · by_cases h2 : fid = "phylum"
      · rw [c6reg] at h
        rw [if_neg h1, if_pos h2] at h
        cases h
        decide
      · rw [c6reg] at h
        rw [if_neg h1, if_neg h2] at h
        cases h
  obtain ⟨res, h1, h2⟩ := c6_parse_params c6reg
    ["gc--Min=0.3", "bad", "a=b=c", "gc--Max=0.7", "zz--Min=2",
     "gc--Nope=1", "gc--Min=0.4"] hreg
  refine ⟨hreg, res, h1, ?_, ?_, ?_, ?_⟩ <;> rw [h2] <;> decide

theorem c8_witness :
    (100 : ℚ) ≤ 1000000 / 4300 ∧ spanOverN50 1000000 4300 = .int 233 := by
  have h : (100 : ℚ) ≤ 1000000 / 4300 := by norm_num
  obtain ⟨z, hz, hzq⟩ := (c8_spanOverN50 1000000 4300).1 h
  rw [roundSig_million_4300] at hzq
  have hz233 : z = 233 := by exact_mod_cast hzq
  exact ⟨h, by rw [hz, hz233]⟩

theorem c9_witness :
    ∃ msg, create_filtered_dataset ⟨"x", [⟨"gc", .Variable [1/2], false⟩]⟩ [] =
      .error msg := by
  exact c9_empty_indices_error ⟨"x", [⟨"gc", .Variable [1/2], false⟩]⟩
    ⟨⟨"gc", .Variable [1/2], false⟩, List.mem_cons_self _ _, rfl, [1/2], rfl⟩

theorem c3_witness :
    create_filtered_dataset c3ds [0,2,4] = .ok c3out ∧
    c3out.records = 3 ∧ c3out.origin = "blob_src" ∧
    c3out.span = some 90 ∧ c3out.scaffold_count = some 3 ∧
    (∃ ov, ("identifiers", ov) ∈ c3out.outFields ∧
      ov.values = [Value.str "a", Value.str "c", Value.str "e"]) := by
  have heval : create_filtered_dataset c3ds [0,2,4] = .ok c3out := by
    simp [create_filtered_dataset, c3ds, List.foldlM, writerStep, writeField,
      expandValues, Bind.bind, Except.bind, c3out, List.min?, List.max?,
      min_def, max_def, pure, Except.pure]
    norm_num
  have hval : ∀ e, e ∈ c3ds.fields → ∀ i, i ∈ ([0,2,4] : List Nat) →
      i < fieldLen e.data := by
    intro e he i hi
    simp [c3ds] at he
    simp at hi
    rcases he with rfl | rfl | rfl <;> simp [fieldLen] <;> omega
  have hnodup : (c3ds.fields.map SourceEntry.field_id).Nodup := by
    have h : c3ds.fields.map SourceEntry.field_id =
        ["identifiers", "length", "phylum"] := rfl
    rw [h]
    decide
  obtain ⟨h1, h2, h3, h4⟩ :=
    c3_create_filtered_dataset c3ds [0,2,4] c3out heval hval hnodup
  have hlen := h4 [10,20,30,40,50] (by simp [c3ds])
  have hid := h3 ⟨"identifiers", .Identifier ["a","b","c","d","e"], false⟩
    (by simp [c3ds]) rfl
  obtain ⟨ov, hov1, hov2, _⟩ := hid
  refine ⟨heval, h1, h2, ?_, ?_, ⟨ov, hov1, ?_⟩⟩
  · rw [hlen.1]
    norm_num
  · exact hlen.2
  · rw [hov2]
    rfl

theorem c7_witness :
    pyIsDigit "7" = true ∧ resolveKeyToken ["A","B","C"] "7" = .ok 7 ∧
    pyIsDigit "B" = false ∧ resolveKeyToken ["A","B","C"] "B" = .ok 1 ∧
    (∃ e, resolveKeyToken ["A","B","C"] "D" = .error e) := by
  refine ⟨by decide, ?_, by decide, by decide, ?_⟩
  · exact ((c7_keys_token ["A","B","C"] "7").1 (by decide) ["A","B","C"]).trans
      (by decide)
  · exact (c7_keys_token ["A","B","C"] "D").2.2 (by decide) (by decide)
